import Mathlib

/-!
Verification of the sequence-analytics engine in
src/backend/etl/process_txt.py.

Embedding conventions: Python strings are lists of characters; Python dicts
(insertion-ordered) are association lists; the multiprocessing pool maps are
plain List.map (the pool only distributes pure work and joins on completion);
functions that can raise ValueError return Option / Except values.
-/

/-- Python slice sequence[i : i + len]. -/
def window (s : List Char) (i len : Nat) : List Char := (s.drop i).take len

/-- One step of the scan in find_lcs_of_two: replace the best substring so far
when the tested window occurs in sequence2 and is strictly longer. -/
def lcsStep (sequence2 : List Char) (best w : List Char) : List Char :=
  if w <:+: sequence2 ∧ best.length < w.length then w else best

/-- find_lcs_of_two from process_txt.py: for every start offset of sequence1
and every increasing window length, keep a strictly longer success only. -/
def find_lcs_of_two (sequence1 sequence2 : List Char) : List Char :=
  (List.range sequence1.length).foldl (fun best i =>
    (List.range (sequence1.length - i)).foldl
      (fun best l => lcsStep sequence2 best (window sequence1 i (l + 1))) best)
    []

/-- All windows tested by find_lcs_of_two, in scan order (offset-major, then
increasing length). -/
def scanWindows (s : List Char) : List (List Char) :=
  (List.range s.length).flatMap (fun i =>
    (List.range (s.length - i)).map (fun l => window s i (l + 1)))

theorem find_lcs_eq_foldl (s1 s2 : List Char) :
    find_lcs_of_two s1 s2 = (scanWindows s1).foldl (lcsStep s2) [] := by
  simp [find_lcs_of_two, scanWindows, List.flatMap, List.foldl_flatten,
    List.foldl_map]

theorem foldl_lcsStep_init_le (s2 : List Char) (ws : List (List Char))
    (b : List Char) : b.length ≤ (ws.foldl (lcsStep s2) b).length := by
  induction ws generalizing b with
  | nil => simp
  | cons w ws ih =>
    refine le_trans ?_ (ih (lcsStep s2 b w))
    unfold lcsStep
    split
    · omega
    · exact le_refl _

theorem foldl_lcsStep_mem (s2 : List Char) (ws : List (List Char))
    (b : List Char) :
    ws.foldl (lcsStep s2) b = b ∨
      (ws.foldl (lcsStep s2) b ∈ ws ∧ ws.foldl (lcsStep s2) b <:+: s2) := by
  induction ws generalizing b with
  | nil => simp
  | cons w ws ih =>
    rcases ih (lcsStep s2 b w) with h | h
    · simp only [List.foldl_cons, h]
      unfold lcsStep
      split
      · next hc => exact Or.inr ⟨List.mem_cons_self _ _, hc.1⟩
      · exact Or.inl rfl
    · exact Or.inr ⟨List.mem_cons_of_mem _ h.1, h.2⟩

theorem foldl_lcsStep_max (s2 : List Char) (ws : List (List Char))
    (b : List Char) :
    ∀ w ∈ ws, w <:+: s2 → w.length ≤ (ws.foldl (lcsStep s2) b).length := by
  induction ws generalizing b with
  | nil => simp
  | cons v ws ih =>
    intro w hw hinf
    rcases List.mem_cons.mp hw with rfl | hw
    · refine le_trans ?_ (foldl_lcsStep_init_le s2 ws (lcsStep s2 b w))
      unfold lcsStep
      split
      · exact le_refl _
      · next hc =>
        push_neg at hc
        exact hc hinf
    · exact ih (lcsStep s2 b v) w hw hinf

theorem foldl_lcsStep_const (s2 : List Char) (ws : List (List Char))
    (b : List Char) (h : ∀ w ∈ ws, w <:+: s2 → w.length ≤ b.length) :
    ws.foldl (lcsStep s2) b = b := by
  induction ws with
  | nil => simp
  | cons w ws ih =>
    have hs : lcsStep s2 b w = b := by
      unfold lcsStep
      split
      · next hc => exact absurd (h w (List.mem_cons_self _ _) hc.1) (by omega)
      · rfl
    simp only [List.foldl_cons, hs]
    exact ih fun v hv => h v (List.mem_cons_of_mem _ hv)

theorem foldl_lcsStep_first (s2 : List Char) (l₁ l₂ : List (List Char))
    (w₀ b : List Char) (hw : w₀ <:+: s2) (hb : b.length < w₀.length)
    (h1 : ∀ w ∈ l₁, w <:+: s2 → w.length < w₀.length)
    (h2 : ∀ w ∈ l₂, w <:+: s2 → w.length ≤ w₀.length) :
    (l₁ ++ w₀ :: l₂).foldl (lcsStep s2) b = w₀ := by
  rw [List.foldl_append]
  have hb1 : (l₁.foldl (lcsStep s2) b).length < w₀.length := by
    rcases foldl_lcsStep_mem s2 l₁ b with h | h
    · rw [h]; exact hb
    · exact h1 _ h.1 h.2
  have hstep : lcsStep s2 (l₁.foldl (lcsStep s2) b) w₀ = w₀ := by
    unfold lcsStep
    rw [if_pos ⟨hw, hb1⟩]
  simp only [List.foldl_cons, hstep]
  exact foldl_lcsStep_const s2 l₂ w₀ h2

theorem window_infix (s : List Char) (i len : Nat) : window s i len <:+: s :=
  ( List.take_prefix _ _).isInfix.trans (List.drop_suffix i s).isInfix

theorem window_length (s : List Char) (i len : Nat) (h : i + len ≤ s.length) :
    (window s i len).length = len := by
  simp only [window, List.length_take, List.length_drop]
  omega

theorem window_take (s : List Char) (i L len : Nat) (h : L ≤ len) :
    window s i L = (window s i len).take L := by
  simp [window, List.take_take, Nat.min_eq_left h]

theorem exists_window_of_infix (w s : List Char) (hw : w <:+: s) :
    ∃ i, i + w.length ≤ s.length ∧ w = window s i w.length := by
  obtain ⟨t, u, h⟩ := hw
  refine ⟨t.length, ?_, ?_⟩
  · have := congrArg List.length h
    simp at this
    omega
  · have hdrop : (t ++ (w ++ u)).drop t.length = w ++ u := List.drop_left t _
    have hs : s.drop t.length = w ++ u := by
      rw [← h, List.append_assoc]
      exact hdrop
    rw [window, hs, List.take_left' rfl]

theorem mem_scanWindows {w s : List Char} :
    w ∈ scanWindows s ↔
      ∃ i len, 1 ≤ len ∧ i + len ≤ s.length ∧ w = window s i len := by
  constructor
  · intro hmem
    rw [scanWindows, List.mem_flatMap] at hmem
    obtain ⟨i, hi, hw⟩ := hmem
    rw [List.mem_map] at hw
    obtain ⟨l, hl, rfl⟩ := hw
    rw [List.mem_range] at hi hl
    exact ⟨i, l + 1, by omega, by omega, rfl⟩
  · rintro ⟨i, len, h1, h2, rfl⟩
    rw [scanWindows, List.mem_flatMap]
    refine ⟨i, List.mem_range.mpr (by omega), ?_⟩
    rw [List.mem_map]
    exact ⟨len - 1, List.mem_range.mpr (by omega), by
      congr 1
      omega⟩

theorem singleton_infix_iff {c : Char} {l : List Char} :
    [c] <:+: l ↔ c ∈ l := by
  constructor
  · intro h
    exact h.sublist.subset (List.mem_singleton_self c)
  · intro h
    obtain ⟨t, u, rfl⟩ := List.append_of_mem h
    exact ⟨t, u, by simp⟩

theorem find_lcs_infix (A B : List Char) :
    find_lcs_of_two A B <:+: A ∧ find_lcs_of_two A B <:+: B := by
  rw [find_lcs_eq_foldl]
  rcases foldl_lcsStep_mem B (scanWindows A) [] with h | h
  · rw [h]
    exact ⟨ List.nil_infix, List.nil_infix⟩
  · obtain ⟨i, len, _, _, heq⟩ := mem_scanWindows.mp h.1
    refine ⟨?_, h.2⟩
    rw [heq]
    exact window_infix A i len

theorem find_lcs_maximal (A B : List Char) :
    ∀ w, w <:+: A → w <:+: B → w.length ≤ (find_lcs_of_two A B).length := by
  intro w hwA hwB
  rcases eq_or_ne w [] with rfl | hne
  · simp
  · obtain ⟨i, hfull, hw⟩ := exists_window_of_infix w A hwA
    have hmem : w ∈ scanWindows A :=
      mem_scanWindows.mpr ⟨i, w.length, List.length_pos.mpr hne, hfull, hw⟩
    rw [find_lcs_eq_foldl]
    exact foldl_lcsStep_max B _ [] w hmem hwB

theorem find_lcs_empty_iff (A B : List Char) :
    find_lcs_of_two A B = [] ↔ ¬ ∃ c ∈ A, [c] <:+: B := by
  constructor
  · rintro h ⟨c, hcA, hcB⟩
    have hmax := find_lcs_maximal A B [c] (singleton_infix_iff.mpr hcA) hcB
    rw [h] at hmax
    simp at hmax
  · intro h
    by_contra hne
    obtain ⟨hA, hB⟩ := find_lcs_infix A B
    obtain ⟨c, hcmem⟩ := List.exists_mem_of_ne_nil _ hne
    exact h ⟨c, hA.sublist.subset hcmem,
      singleton_infix_iff.mpr (hB.sublist.subset hcmem)⟩

theorem find_lcs_leftmost (A B : List Char) (hne : find_lcs_of_two A B ≠ []) :
    ∃ i, i + (find_lcs_of_two A B).length ≤ A.length ∧
      find_lcs_of_two A B = window A i (find_lcs_of_two A B).length ∧
      ∀ j < i, ¬ window A j (find_lcs_of_two A B).length <:+: B := by
  set n := A.length with hn
  set r := find_lcs_of_two A B with hr
  set L := r.length with hL
  have hL1 : 1 ≤ L := List.length_pos.mpr hne
  have hrfold : r = (scanWindows A).foldl (lcsStep B) [] := find_lcs_eq_foldl A B
  have hmem : r ∈ scanWindows A ∧ r <:+: B := by
    rcases foldl_lcsStep_mem B (scanWindows A) [] with h | h
    · rw [hrfold] at hne
      exact absurd h hne
    · rw [hrfold]
      exact h
  obtain ⟨i', len', hlen1, hfull', heq'⟩ := mem_scanWindows.mp hmem.1
  have hlen'L : len' = L := by
    rw [hL, heq', window_length A i' len' hfull']
  have hpred : ∃ i, i + L ≤ n ∧ window A i L <:+: B := by
    refine ⟨i', by omega, ?_⟩
    rw [← hlen'L, ← heq']
    exact hmem.2
  classical
  set i₀ := Nat.find hpred with hi₀
  obtain ⟨hfull, hinf⟩ := Nat.find_spec hpred
  -- Decompose the scan order around the window at offset i₀ of length L.
  set f : Nat → List (List Char) :=
    fun i => (List.range (n - i)).map (fun l => window A i (l + 1)) with hf
  set g : Nat → List Char := fun l => window A i₀ (l + 1) with hg
  have hsw : scanWindows A = (List.range n).flatMap f := rfl
  have hrange : List.range n = List.range' 0 i₀ ++ i₀ :: List.range' (i₀ + 1) (n - i₀ - 1) := by
    rw [List.range_eq_range']
    have h1 : List.range' 0 i₀ ++ List.range' i₀ (n - i₀) = List.range' 0 n := by
      have := List.range'_append 0 i₀ (n - i₀) 1
      simpa [Nat.sub_add_cancel (show i₀ ≤ n by omega)] using this
    have h2 : List.range' i₀ (n - i₀) = i₀ :: List.range' (i₀ + 1) (n - i₀ - 1) := by
      have hsub : n - i₀ = (n - i₀ - 1) + 1 := by omega
      rw [hsub, List.range'_succ]
      simp
    rw [← h1, h2]
  have hfi₀ : f i₀ = (List.range (L - 1)).map g ++
      window A i₀ L :: (List.range' L (n - i₀ - L)).map g := by
    show (List.range (n - i₀)).map (fun l => window A i₀ (l + 1)) = _
    have h1 : List.range (n - i₀) =
        List.range (L - 1) ++ List.range' (L - 1) (n - i₀ - (L - 1)) := by
      rw [List.range_eq_range', List.range_eq_range']
      have hap := List.range'_append 0 (L - 1) (n - i₀ - (L - 1)) 1
      simp only [Nat.zero_add, Nat.one_mul] at hap
      have harith : n - i₀ - (L - 1) + (L - 1) = n - i₀ := by omega
      rw [harith] at hap
      exact hap.symm
    have h2 : List.range' (L - 1) (n - i₀ - (L - 1)) =
        (L - 1) :: List.range' L (n - i₀ - L) := by
      have hsub : n - i₀ - (L - 1) = (n - i₀ - L) + 1 := by omega
      rw [hsub, List.range'_succ]
      have hLL : L - 1 + 1 = L := by omega
      rw [hLL]
    rw [h1, h2, List.map_append, List.map_cons]
    have hLL : L - 1 + 1 = L := by omega
    rw [hLL, hg]
  set l₁ : List (List Char) := (List.range' 0 i₀).flatMap f ++ (List.range (L - 1)).map g with hl₁
  set l₂ : List (List Char) := (List.range' L (n - i₀ - L)).map g ++
      (List.range' (i₀ + 1) (n - i₀ - 1)).flatMap f with hl₂
  have hdecomp : scanWindows A = l₁ ++ window A i₀ L :: l₂ := by
    rw [hsw, hrange, List.flatMap_append, List.flatMap_cons, hfi₀, hl₁, hl₂]
    simp [List.append_assoc]
  have hmax : ∀ w ∈ scanWindows A, w <:+: B → w.length ≤ L := by
    intro w hw hwB
    have := foldl_lcsStep_max B (scanWindows A) [] w hw hwB
    rw [← hrfold] at this
    exact this
  have h1cond : ∀ w ∈ l₁, w <:+: B → w.length < L := by
    intro w hw hwB
    rw [hl₁, List.mem_append] at hw
    rcases hw with hw | hw
    · rw [List.mem_flatMap] at hw
      obtain ⟨j, hj, hwf⟩ := hw
      rw [List.mem_range'_1] at hj
      rw [hf, List.mem_map] at hwf
      obtain ⟨l, hl, rfl⟩ := hwf
      rw [List.mem_range] at hl
      have hwl : (window A j (l + 1)).length = l + 1 :=
        window_length A j (l + 1) (by omega)
      rw [hwl]
      by_contra hcon
      push_neg at hcon
      have hjfull : window A j L <:+: B := by
        have htake : window A j L = (window A j (l + 1)).take L :=
          window_take A j L (l + 1) (by omega)
        rw [htake]
        exact ( List.take_prefix L _).isInfix.trans hwB
      exact Nat.find_min hpred (show j < i₀ by omega) ⟨by omega, hjfull⟩
    · rw [List.mem_map] at hw
      obtain ⟨l, hl, rfl⟩ := hw
      rw [List.mem_range] at hl
      have hgl : (g l).length ≤ l + 1 := by
        rw [hg]
        simp only [window, List.length_take, List.length_drop]
        omega
      omega
  have h2cond : ∀ w ∈ l₂, w <:+: B → w.length ≤ L := by
    intro w hw hwB
    refine hmax w ?_ hwB
    rw [hdecomp, List.mem_append, List.mem_cons]
    exact Or.inr (Or.inr hw)
  have hwin_len : (window A i₀ L).length = L := window_length A i₀ L hfull
  have hfirst : (l₁ ++ window A i₀ L :: l₂).foldl (lcsStep B) [] = window A i₀ L := by
    apply foldl_lcsStep_first B l₁ l₂ (window A i₀ L) [] hinf
    · rw [hwin_len]
      simpa using hL1
    · intro w hw hwB
      rw [hwin_len]
      exact h1cond w hw hwB
    · intro w hw hwB
      rw [hwin_len]
      exact h2cond w hw hwB
  have hreq : r = window A i₀ L := by
    rw [hrfold, hdecomp]
    exact hfirst
  refine ⟨i₀, hfull, hreq, ?_⟩
  intro j hj hcon
  exact Nat.find_min hpred hj ⟨by omega, hcon⟩

/-- C1: for every pair of non-empty strings A and B, find_lcs_of_two returns a
common contiguous substring of A and B that is longest among all common
contiguous substrings; the result is empty exactly when no length-1 substring
of A occurs in B; and a non-empty result is the window of A at the leftmost
offset achieving the maximal length, i.e. the first success of that length in
the scan order over offsets and increasing window lengths. -/
theorem claim_C1_find_lcs_of_two (A B : List Char) (hA : A ≠ []) (hB : B ≠ []) :
    (find_lcs_of_two A B <:+: A ∧ find_lcs_of_two A B <:+: B) ∧
    (∀ w, w <:+: A → w <:+: B → w.length ≤ (find_lcs_of_two A B).length) ∧
    (find_lcs_of_two A B = [] ↔ ¬ ∃ c ∈ A, [c] <:+: B) ∧
    (find_lcs_of_two A B ≠ [] →
      ∃ i, i + (find_lcs_of_two A B).length ≤ A.length ∧
        find_lcs_of_two A B = window A i (find_lcs_of_two A B).length ∧
        ∀ j < i, ¬ window A j (find_lcs_of_two A B).length <:+: B) :=
  ⟨ find_lcs_infix A B, find_lcs_maximal A B, find_lcs_empty_iff A B,
    find_lcs_leftmost A B⟩

/-- Witness for C1 at A = "AB", B = "BC": both hypotheses hold and the
conclusion is obtained from the theorem at this concrete input. -/
theorem claim_C1_witness :
    (['A', 'B'] : List Char) ≠ [] ∧ (['B', 'C'] : List Char) ≠ [] ∧
    (find_lcs_of_two ['A', 'B'] ['B', 'C'] <:+: ['A', 'B'] ∧
      find_lcs_of_two ['A', 'B'] ['B', 'C'] <:+: ['B', 'C']) :=
  ⟨by decide, by decide,
    (claim_C1_find_lcs_of_two ['A', 'B'] ['B', 'C'] (by decide) (by decide)).1⟩

/-- Insert-or-add on an insertion-ordered dictionary (Python dict semantics):
bump the value at an existing key in place, else append the key at the end. -/
def incKey (m : List (List Char × Nat)) (k : List Char) (v : Nat) :
    List (List Char × Nat) :=
  if k ∈ m.map Prod.fst then
    m.map (fun p => if p.1 = k then (p.1, p.2 + v) else p)
  else m ++ [(k, v)]

/-- The complete non-overlapping triplets of a sequence in scan order: Python
range(0, len(s) - len(s) % 3, 3) visiting the slices s[i:i+3]. -/
def codonsOf (s : List Char) : List (List Char) :=
  (List.range (s.length / 3)).map (fun k => window s (3 * k) 3)

/-- compute_codon_frequency from process_txt.py: an insertion-ordered
frequency dictionary over the complete triplets of the sequence. -/
def compute_codon_frequency (s : List Char) : List (List Char × Nat) :=
  (codonsOf s).foldl (fun m c => incKey m c 1) []

/-- compute_most_frequent_codon from process_txt.py. The none value models
the ValueError raised by Python's max() on an empty codon table. -/
def compute_most_frequent_codon (seqs : List (List Char)) : Option (List Char) :=
  let total := seqs.foldl
    (fun tot s => (compute_codon_frequency s).foldl
      (fun t p => incKey t p.1 p.2) tot) []
  match total.map Prod.snd with
  | [] => none
  | v :: vs =>
    let maxFrequency := vs.foldl max v
    some (List.intercalate [',', ' ']
      ((total.filter (fun p => p.2 = maxFrequency)).map Prod.fst))

/-- First-seen-order deduplication (Python dict.fromkeys) relative to a list
of already-seen keys. -/
def dedupFirst (seen : List (List Char)) : List (List Char) → List (List Char)
  | [] => []
  | x :: xs =>
    if x ∈ seen then dedupFirst seen xs else x :: dedupFirst (x :: seen) xs

theorem mem_dedupFirst {k : List Char} :
    ∀ {seen cs : List (List Char)}, k ∈ dedupFirst seen cs ↔ k ∉ seen ∧ k ∈ cs := by
  intro seen cs
  induction cs generalizing seen with
  | nil => simp [dedupFirst]
  | cons x xs ih =>
    by_cases hx : x ∈ seen
    · rw [dedupFirst, if_pos hx, ih]
      constructor
      · rintro ⟨h1, h2⟩
        exact ⟨h1, List.mem_cons_of_mem _ h2⟩
      · rintro ⟨h1, h2⟩
        rcases List.mem_cons.mp h2 with rfl | h2
        · exact absurd hx h1
        · exact ⟨h1, h2⟩
    · rw [dedupFirst, if_neg hx, List.mem_cons, ih]
      constructor
      · rintro (rfl | ⟨h1, h2⟩)
        · exact ⟨hx, List.mem_cons_self _ _⟩
        · refine ⟨fun hk => h1 (List.mem_cons_of_mem _ hk), List.mem_cons_of_mem _ h2⟩
      · rintro ⟨h1, h2⟩
        rcases List.mem_cons.mp h2 with rfl | h2
        · exact Or.inl rfl
        · by_cases hkx : k = x
          · exact Or.inl hkx
          · exact Or.inr ⟨by
              intro hk
              rcases List.mem_cons.mp hk with h | h
              · exact hkx h
              · exact h1 h, h2⟩

theorem dedupFirst_congr_seen {s₁ s₂ : List (List Char)}
    (h : ∀ a, a ∈ s₁ ↔ a ∈ s₂) (cs : List (List Char)) :
    dedupFirst s₁ cs = dedupFirst s₂ cs := by
  induction cs generalizing s₁ s₂ with
  | nil => rfl
  | cons x xs ih =>
    by_cases hx : x ∈ s₁
    · rw [dedupFirst, if_pos hx, dedupFirst, if_pos ((h x).mp hx)]
      exact ih h
    · rw [dedupFirst, if_neg hx, dedupFirst, if_neg (fun hc => hx ((h x).mpr hc))]
      refine congrArg _ (ih ?_)
      intro a
      simp only [List.mem_cons]
      rw [h a]

theorem dedupFirst_nodup (seen cs : List (List Char)) :
    (dedupFirst seen cs).Nodup := by
  induction cs generalizing seen with
  | nil => exact List.nodup_nil
  | cons x xs ih =>
    by_cases hx : x ∈ seen
    · rw [dedupFirst, if_pos hx]
      exact ih seen
    · rw [dedupFirst, if_neg hx]
      refine List.nodup_cons.mpr ⟨?_, ih (x :: seen)⟩
      intro hmem
      exact (mem_dedupFirst.mp hmem).1 (List.mem_cons_self _ _)

theorem dedupFirst_filter (s₁ s₂ cs : List (List Char)) :
    (dedupFirst s₁ cs).filter (fun k => k ∉ s₂) = dedupFirst (s₁ ++ s₂) cs := by
  induction cs generalizing s₁ with
  | nil => rfl
  | cons x xs ih =>
    by_cases hx1 : x ∈ s₁
    · rw [dedupFirst, if_pos hx1, dedupFirst,
        if_pos (List.mem_append.mpr (Or.inl hx1))]
      exact ih s₁
    · rw [dedupFirst, if_neg hx1]
      by_cases hx2 : x ∈ s₂
      · rw [List.filter_cons_of_neg (by simpa using hx2), dedupFirst,
          if_pos (List.mem_append.mpr (Or.inr hx2)), ih]
        refine dedupFirst_congr_seen ?_ xs
        intro a
        show a ∈ x :: (s₁ ++ s₂) ↔ a ∈ s₁ ++ s₂
        simp only [List.mem_cons]
        constructor
        · rintro (rfl | h)
          · exact List.mem_append.mpr (Or.inr hx2)
          · exact h
        · exact fun h => Or.inr h
      · have hnotin : x ∉ s₁ ++ s₂ :=
          fun hc => (List.mem_append.mp hc).elim hx1 hx2
        rw [List.filter_cons_of_pos (by simpa using hx2), dedupFirst,
          if_neg hnotin, ih]
        rfl

theorem foldl_incKey_one (cs : List (List Char)) (m : List (List Char × Nat)) :
    cs.foldl (fun t c => incKey t c 1) m =
      m.map (fun p => (p.1, p.2 + cs.count p.1)) ++
      (dedupFirst (m.map Prod.fst) cs).map (fun k => (k, cs.count k)) := by
  induction cs generalizing m with
  | nil => simp [dedupFirst]
  | cons c cs ih =>
    rw [List.foldl_cons]
    by_cases hc : c ∈ m.map Prod.fst
    · rw [show incKey m c 1 = m.map (fun p => if p.1 = c then (p.1, p.2 + 1) else p) from
        by rw [incKey, if_pos hc], ih]
      have hkeys : (m.map (fun p => if p.1 = c then (p.1, p.2 + 1) else p)).map Prod.fst =
          m.map Prod.fst := by
        rw [List.map_map]
        refine List.map_congr_left ?_
        intro p _
        by_cases hp : p.1 = c <;> simp [hp]
      rw [hkeys]
      congr 1
      · rw [List.map_map]
        refine List.map_congr_left ?_
        intro p _
        by_cases hp : p.1 = c
        · simp [hp, List.count_cons_self, Prod.ext_iff]
          omega
        · simp [Function.comp_apply, if_neg hp, List.count_cons_of_ne hp]
      · rw [dedupFirst, if_pos hc]
        refine List.map_congr_left ?_
        intro k hk
        have hkne : k ≠ c := by
          intro h
          subst h
          exact (mem_dedupFirst.mp hk).1 hc
        simp [List.count_cons_of_ne hkne]
    · rw [show incKey m c 1 = m ++ [(c, 1)] from by rw [incKey, if_neg hc], ih]
      have hkeys : (m ++ [(c, 1)]).map Prod.fst = m.map Prod.fst ++ [c] := by simp
      rw [hkeys]
      have hseen : dedupFirst (m.map Prod.fst ++ [c]) cs =
          dedupFirst (c :: m.map Prod.fst) cs := by
        refine dedupFirst_congr_seen ?_ cs
        intro a
        constructor
        · intro h
          rcases List.mem_append.mp h with h | h
          · exact List.mem_cons_of_mem _ h
          · exact List.mem_cons.mpr (Or.inl (List.mem_singleton.mp h))
        · intro h
          rcases List.mem_cons.mp h with rfl | h
          · exact List.mem_append.mpr (Or.inr (List.mem_singleton_self _))
          · exact List.mem_append.mpr (Or.inl h)
      rw [hseen, List.map_append, dedupFirst, if_neg hc, List.map_cons,
        List.append_assoc]
      congr 1
      · refine List.map_congr_left ?_
        rintro ⟨a, b⟩ hab
        have hane : a ≠ c := by
          intro h
          subst h
          exact hc (List.mem_map.mpr ⟨(a, b), hab, rfl⟩)
        simp [List.count_cons_of_ne hane]
      · simp only [List.map_cons, List.map_nil, List.singleton_append]
        congr 1
        · simp only [List.count_cons_self, Prod.mk.injEq, true_and]
          omega
        · refine List.map_congr_left ?_
          intro k hk
          have hkne : k ≠ c := by
            intro h
            subst h
            exact (mem_dedupFirst.mp hk).1 (List.mem_cons_self _ _)
          simp [List.count_cons_of_ne hkne]

/-- Sum of the values that an association list carries at a given key. -/
def sumValsAt (ps : List (List Char × Nat)) (k : List Char) : Nat :=
  ((ps.filter (fun p => p.1 = k)).map Prod.snd).sum

theorem sumValsAt_eq_zero {ps : List (List Char × Nat)} {k : List Char}
    (h : k ∉ ps.map Prod.fst) : sumValsAt ps k = 0 := by
  rw [sumValsAt]
  have hf : ps.filter (fun p => p.1 = k) = [] := by
    refine List.filter_eq_nil.mpr ?_
    intro p hp
    simp only [decide_eq_true_eq]
    intro hk
    exact h (List.mem_map.mpr ⟨p, hp, hk⟩)
  rw [hf]
  rfl

theorem sumValsAt_map_count (l : List (List Char)) (f : List Char → Nat)
    (x : List Char) (hl : l.Nodup) :
    sumValsAt (l.map (fun k => (k, f k))) x = if x ∈ l then f x else 0 := by
  induction l with
  | nil => simp [sumValsAt]
  | cons k l ih =>
    have hnd := List.nodup_cons.mp hl
    by_cases hk : k = x
    · subst hk
      rw [sumValsAt, List.map_cons, List.filter_cons_of_pos (by simp),
        List.map_cons, List.sum_cons, if_pos (List.mem_cons_self _ _)]
      have hrest : sumValsAt (l.map (fun k => (k, f k))) k = 0 := by
        refine sumValsAt_eq_zero ?_
        rw [List.map_map]
        simpa using hnd.1
      rw [sumValsAt] at hrest
      rw [hrest]
      simp
    · rw [sumValsAt, List.map_cons, List.filter_cons_of_neg (by simpa using hk),
        ← sumValsAt, ih hnd.2]
      by_cases hx : x ∈ l
      · rw [if_pos hx, if_pos (List.mem_cons_of_mem _ hx)]
      · rw [if_neg hx, if_neg (by
          intro hc
          rcases List.mem_cons.mp hc with rfl | hc
          · exact hk rfl
          · exact hx hc)]

theorem map_fst_incKey_bump (m : List (List Char × Nat)) (k : List Char)
    (v : Nat) :
    (m.map (fun p => if p.1 = k then (p.1, p.2 + v) else p)).map Prod.fst =
      m.map Prod.fst := by
  rw [List.map_map]
  refine List.map_congr_left ?_
  intro p _
  by_cases hp : p.1 = k <;> simp [hp]

theorem foldl_incKey_pairs (ps : List (List Char × Nat))
    (m : List (List Char × Nat)) (hnd : (ps.map Prod.fst).Nodup) :
    ps.foldl (fun t p => incKey t p.1 p.2) m =
      m.map (fun q => (q.1, q.2 + sumValsAt ps q.1)) ++
      ps.filter (fun p => p.1 ∉ m.map Prod.fst) := by
  induction ps generalizing m with
  | nil => simp [sumValsAt]
  | cons p ps ih =>
    rw [List.map_cons, List.nodup_cons] at hnd
    rw [List.foldl_cons]
    by_cases hm : p.1 ∈ m.map Prod.fst
    · rw [show incKey m p.1 p.2 =
          m.map (fun q => if q.1 = p.1 then (q.1, q.2 + p.2) else q) from
        by rw [incKey, if_pos hm], ih _ hnd.2, map_fst_incKey_bump]
      congr 1
      · rw [List.map_map]
        refine List.map_congr_left ?_
        intro q _
        by_cases hq : q.1 = p.1
        · have hsum : sumValsAt (p :: ps) p.1 = p.2 + sumValsAt ps p.1 := by
            rw [sumValsAt, List.filter_cons_of_pos (by simp),
              List.map_cons, List.sum_cons, ← sumValsAt]
          simp [hq, hsum, Prod.ext_iff]
          omega
        · have hsum : sumValsAt (p :: ps) q.1 = sumValsAt ps q.1 := by
            rw [sumValsAt, List.filter_cons_of_neg (by simpa using fun h => hq h.symm),
              ← sumValsAt]
          simp [hq, hsum]
      · rw [List.filter_cons_of_neg (by simpa using hm)]
    · rw [show incKey m p.1 p.2 = m ++ [(p.1, p.2)] from by rw [incKey, if_neg hm],
        ih _ hnd.2]
      have hps0 : sumValsAt ps p.1 = 0 := sumValsAt_eq_zero hnd.1
      rw [List.map_append, List.filter_cons_of_pos (by simpa using hm),
        List.append_assoc]
      congr 1
      · refine List.map_congr_left ?_
        intro q hq
        have hqne : q.1 ≠ p.1 := by
          intro h
          exact hm (h ▸ List.mem_map.mpr ⟨q, hq, rfl⟩)
        have hsum : sumValsAt (p :: ps) q.1 = sumValsAt ps q.1 := by
          rw [sumValsAt, List.filter_cons_of_neg (by simpa using fun h => hqne h.symm),
            ← sumValsAt]
        rw [hsum]
      · simp only [List.map_cons, List.map_nil, List.singleton_append, hps0]
        congr 1
        refine List.filter_congr ?_
        intro q hq
        have hqne : q.1 ≠ p.1 := by
          intro h
          exact hnd.1 (h ▸ List.mem_map.mpr ⟨q, hq, rfl⟩)
        simp only [List.map_append, List.map_cons, List.map_nil, decide_eq_decide]
        constructor
        · intro hc hmem
          exact hc (List.mem_append.mpr (Or.inl hmem))
        · intro hc hmem
          rcases List.mem_append.mp hmem with h | h
          · exact hc h
          · exact hqne (List.mem_singleton.mp h)

theorem compute_codon_frequency_eq (s : List Char) :
    compute_codon_frequency s =
      (dedupFirst [] (codonsOf s)).map (fun k => (k, (codonsOf s).count k)) := by
  rw [compute_codon_frequency, foldl_incKey_one]
  simp

theorem foldl_incKey_hist (s : List Char) (t : List (List Char × Nat)) :
    (compute_codon_frequency s).foldl (fun m p => incKey m p.1 p.2) t =
      (codonsOf s).foldl (fun m c => incKey m c 1) t := by
  rw [compute_codon_frequency_eq]
  have hnd : (((dedupFirst [] (codonsOf s)).map
      (fun k => (k, (codonsOf s).count k))).map Prod.fst).Nodup := by
    rw [List.map_map]
    have hid : (Prod.fst ∘ fun k : List Char => (k, (codonsOf s).count k)) = id := rfl
    rw [hid, List.map_id]
    exact dedupFirst_nodup [] (codonsOf s)
  rw [foldl_incKey_pairs _ _ hnd, foldl_incKey_one]
  congr 1
  · refine List.map_congr_left ?_
    intro q _
    rw [sumValsAt_map_count _ _ _ (dedupFirst_nodup [] (codonsOf s))]
    by_cases hq : q.1 ∈ dedupFirst [] (codonsOf s)
    · rw [if_pos hq]
    · rw [if_neg hq]
      have hcnt : (codonsOf s).count q.1 = 0 :=
        List.count_eq_zero.mpr fun hmem =>
          hq (mem_dedupFirst.mpr ⟨List.not_mem_nil _, hmem⟩)
      rw [hcnt]
  · have hff := dedupFirst_filter [] (t.map Prod.fst) (codonsOf s)
    simp only [List.nil_append] at hff
    rw [← hff, List.filter_map]
    rfl

/-- All complete triplets of all sequences, in file-scan order. -/
def allCodons (seqs : List (List Char)) : List (List Char) :=
  seqs.flatMap codonsOf

/-- The distinct codons in the order each was first encountered while
scanning the sequences in file order. -/
def firstSeenCodons (seqs : List (List Char)) : List (List Char) :=
  dedupFirst [] (allCodons seqs)

/-- The maximum summed occurrence count over all codons. -/
def maxCodonCount (seqs : List (List Char)) : Nat :=
  ((firstSeenCodons seqs).map (fun c => (allCodons seqs).count c)).foldl max 0

theorem total_eq_flat (seqs : List (List Char)) (t : List (List Char × Nat)) :
    seqs.foldl (fun tot s => (compute_codon_frequency s).foldl
        (fun m p => incKey m p.1 p.2) tot) t =
      (allCodons seqs).foldl (fun m c => incKey m c 1) t := by
  induction seqs generalizing t with
  | nil => simp [allCodons]
  | cons s seqs ih =>
    simp only [allCodons, List.flatMap_cons, List.foldl_append, List.foldl_cons]
    rw [foldl_incKey_hist]
    exact ih _

theorem total_characterization (seqs : List (List Char)) :
    seqs.foldl (fun tot s => (compute_codon_frequency s).foldl
        (fun m p => incKey m p.1 p.2) tot) [] =
      (firstSeenCodons seqs).map (fun k => (k, (allCodons seqs).count k)) := by
  rw [total_eq_flat, foldl_incKey_one]
  simp [firstSeenCodons]

theorem length_filter_split (c : List Char) (seen cs : List (List Char))
    (hc : c ∉ seen) :
    (cs.filter (fun x => x ∉ seen)).length =
      cs.count c + (cs.filter (fun x => x ∉ c :: seen)).length := by
  induction cs with
  | nil => simp
  | cons x cs ih =>
    by_cases hx : x = c
    · subst hx
      rw [List.filter_cons_of_pos (by simpa using hc), List.count_cons_self,
        List.filter_cons_of_neg (by simp)]
      simp only [List.length_cons]
      omega
    · by_cases hxs : x ∈ seen
      · rw [List.filter_cons_of_neg (by simpa using hxs),
          List.filter_cons_of_neg (by
            simp only [decide_eq_true_eq, Decidable.not_not]
            exact List.mem_cons_of_mem _ hxs),
          List.count_cons_of_ne (fun h => hx h.symm), ih]
      · rw [List.filter_cons_of_pos (by simpa using hxs),
          List.filter_cons_of_pos (by
            simp only [decide_eq_true_eq]
            intro hcmem
            rcases List.mem_cons.mp hcmem with h | h
            · exact hx h
            · exact hxs h),
          List.count_cons_of_ne (fun h => hx h.symm)]
        simp only [List.length_cons]
        omega

theorem sum_dedupFirst_count (cs : List (List Char)) :
    ∀ seen, ((dedupFirst seen cs).map (fun k => cs.count k)).sum =
      (cs.filter (fun x => x ∉ seen)).length := by
  induction cs with
  | nil =>
    intro seen
    simp [dedupFirst]
  | cons x cs ih =>
    intro seen
    by_cases hx : x ∈ seen
    · rw [dedupFirst, if_pos hx, List.filter_cons_of_neg (by simpa using hx)]
      have hcongr : (dedupFirst seen cs).map (fun k => (x :: cs).count k) =
          (dedupFirst seen cs).map (fun k => cs.count k) := by
        refine List.map_congr_left ?_
        intro k hk
        have hkx : k ≠ x := by
          intro h
          exact (mem_dedupFirst.mp hk).1 (h ▸ hx)
        exact List.count_cons_of_ne hkx _
      rw [hcongr, ih seen]
    · rw [dedupFirst, if_neg hx, List.map_cons, List.sum_cons,
        List.filter_cons_of_pos (by simpa using hx)]
      have hcongr : (dedupFirst (x :: seen) cs).map (fun k => (x :: cs).count k) =
          (dedupFirst (x :: seen) cs).map (fun k => cs.count k) := by
        refine List.map_congr_left ?_
        intro k hk
        have hkx : k ≠ x := by
          intro h
          exact (mem_dedupFirst.mp hk).1 (h ▸ List.mem_cons_self _ _)
        exact List.count_cons_of_ne hkx _
      rw [hcongr, ih (x :: seen), List.count_cons_self]
      have hsplit := length_filter_split x seen cs hx
      simp only [List.length_cons]
      omega

/-- C6: compute_codon_frequency counts exactly the complete non-overlapping
3-character windows of s starting at offset 0 (the incomplete trailing window
is ignored), and the counts in the table sum to floor(len(s) / 3). -/
theorem claim_C6_compute_codon_frequency (s : List Char) :
    compute_codon_frequency s =
      (dedupFirst [] (codonsOf s)).map (fun k => (k, (codonsOf s).count k)) ∧
    ((compute_codon_frequency s).map Prod.snd).sum = s.length / 3 := by
  refine ⟨compute_codon_frequency_eq s, ?_⟩
  rw [compute_codon_frequency_eq, List.map_map]
  have hcomp : (Prod.snd ∘ fun k : List Char => (k, (codonsOf s).count k)) =
      fun k => (codonsOf s).count k := rfl
  rw [hcomp, sum_dedupFirst_count]
  have hfil : (codonsOf s).filter
      (fun x => x ∉ ([] : List (List Char))) = codonsOf s := by
    simp
  rw [hfil]
  simp [codonsOf]

theorem codonsOf_ne_nil {s : List Char} (h : 3 ≤ s.length) : codonsOf s ≠ [] := by
  refine List.ne_nil_of_length_pos ?_
  simp only [codonsOf, List.length_map, List.length_range]
  omega

theorem cmfc_characterization (seqs : List (List Char))
    (hF : firstSeenCodons seqs ≠ []) :
    compute_most_frequent_codon seqs =
      some (List.intercalate [',', ' ']
        ((firstSeenCodons seqs).filter
          (fun c => (allCodons seqs).count c = maxCodonCount seqs))) := by
  obtain ⟨c₀, F', hFeq⟩ := List.exists_cons_of_ne_nil hF
  have hmaxeq : maxCodonCount seqs =
      (F'.map (fun c => (allCodons seqs).count c)).foldl max
        ((allCodons seqs).count c₀) := by
    rw [maxCodonCount, hFeq, List.map_cons, List.foldl_cons, Nat.zero_max]
  unfold compute_most_frequent_codon
  rw [total_characterization, hFeq]
  simp only [List.map_cons, List.map_map]
  have hsnd : (Prod.snd ∘ fun k : List Char => (k, (allCodons seqs).count k)) =
      fun c => (allCodons seqs).count c := rfl
  rw [hsnd, ← hmaxeq]
  have hform :
      ((c₀, (allCodons seqs).count c₀) ::
        F'.map (fun k => (k, (allCodons seqs).count k))) =
      (c₀ :: F').map (fun k => (k, (allCodons seqs).count k)) := rfl
  rw [hform, List.filter_map, List.map_map]
  have hfst : (Prod.fst ∘ fun k : List Char => (k, (allCodons seqs).count k)) =
      id := rfl
  rw [hfst, List.map_id]
  rfl

/-- C5: for every non-empty sequence list with at least one sequence of length
3 or more, compute_most_frequent_codon returns the codons attaining the
maximal summed count, joined with the separator ", " in the order each
distinct codon was first encountered scanning sequences in file order; when a
single codon attains the maximum it is returned alone. -/
theorem claim_C5_compute_most_frequent_codon (seqs : List (List Char))
    (h : seqs ≠ [] ∧ ∃ s ∈ seqs, 3 ≤ s.length) :
    compute_most_frequent_codon seqs =
      some (List.intercalate [',', ' ']
        ((firstSeenCodons seqs).filter
          (fun c => (allCodons seqs).count c = maxCodonCount seqs))) ∧
    ∀ c, (firstSeenCodons seqs).filter
        (fun c' => (allCodons seqs).count c' = maxCodonCount seqs) = [c] →
      compute_most_frequent_codon seqs = some c := by
  obtain ⟨-, s, hs, hs3⟩ := h
  have hall : allCodons seqs ≠ [] := by
    obtain ⟨c, hc⟩ := List.exists_mem_of_ne_nil _ (codonsOf_ne_nil hs3)
    exact List.ne_nil_of_mem
      (show c ∈ allCodons seqs from List.mem_flatMap.mpr ⟨s, hs, hc⟩)
  have hF : firstSeenCodons seqs ≠ [] := by
    obtain ⟨c, hc⟩ := List.exists_mem_of_ne_nil _ hall
    exact List.ne_nil_of_mem
      (show c ∈ firstSeenCodons seqs from
        mem_dedupFirst.mpr ⟨List.not_mem_nil _, hc⟩)
  refine ⟨cmfc_characterization seqs hF, ?_⟩
  intro c hc
  rw [cmfc_characterization seqs hF, hc]
  simp [List.intercalate]

/-- Witness for C5 at the one-sequence input ["ACG"]. -/
theorem claim_C5_witness :
    ((([['A', 'C', 'G']] : List (List Char)) ≠ [] ∧
      ∃ s ∈ [['A', 'C', 'G']], 3 ≤ s.length)) ∧
    compute_most_frequent_codon [['A', 'C', 'G']] =
      some (List.intercalate [',', ' ']
        ((firstSeenCodons [['A', 'C', 'G']]).filter
          (fun c => (allCodons [['A', 'C', 'G']]).count c =
            maxCodonCount [['A', 'C', 'G']]))) :=
  ⟨⟨by decide, by decide⟩,
    (claim_C5_compute_most_frequent_codon [['A', 'C', 'G']]
      ⟨by decide, by decide⟩).1⟩

/-- Rounding to 2 decimal places, Python round(x, 2) over exact rationals. -/
def round2 (q : ℚ) : ℚ := ((round (q * 100) : ℤ) : ℚ) / 100

/-- calc_gc_content from process_txt.py: count 'C' and 'G' in one pass, then
return 100 * (count_c + count_g) / length rounded to 2 decimals. -/
def calc_gc_content (sequence : List Char) : ℚ :=
  let counts := sequence.foldl
    (fun (p : Nat × Nat) ch =>
      ((if ch = 'C' then p.1 + 1 else p.1), (if ch = 'G' then p.2 + 1 else p.2)))
    (0, 0)
  round2 ((100 * ((counts.1 : ℚ) + (counts.2 : ℚ))) / (sequence.length : ℚ))

theorem gc_count_foldl (s : List Char) : ∀ a b : Nat,
    s.foldl (fun (p : Nat × Nat) ch =>
      ((if ch = 'C' then p.1 + 1 else p.1), (if ch = 'G' then p.2 + 1 else p.2)))
      (a, b) = (a + s.count 'C', b + s.count 'G') := by
  induction s with
  | nil =>
    intro a b
    simp
  | cons ch s ih =>
    intro a b
    rw [List.foldl_cons, ih]
    by_cases hC : ch = 'C'
    · subst hC
      simp [List.count_cons, Prod.ext_iff]
      omega
    · by_cases hG : ch = 'G'
      · subst hG
        simp [List.count_cons, Prod.ext_iff]
        omega
      · have hC' : ¬ ('C' = ch) := fun h => hC h.symm
        have hG' : ¬ ('G' = ch) := fun h => hG h.symm
        simp [List.count_cons, hC, hG, hC', hG', Prod.ext_iff]

theorem count_CG_le (s : List Char) : s.count 'C' + s.count 'G' ≤ s.length := by
  induction s with
  | nil => simp
  | cons ch s ih =>
    by_cases hC : ch = 'C'
    · subst hC
      simp [List.count_cons]
      omega
    · by_cases hG : ch = 'G'
      · subst hG
        simp [List.count_cons]
        omega
      · have hC' : ¬ ('C' = ch) := fun h => hC h.symm
        have hG' : ¬ ('G' = ch) := fun h => hG h.symm
        simp [List.count_cons, hC', hG']
        omega

theorem round2_bounds (q : ℚ) (h0 : 0 ≤ q) (h100 : q ≤ 100) :
    0 ≤ round2 q ∧ round2 q ≤ 100 := by
  have hlow : (0 : ℤ) ≤ round (q * 100) := by
    rw [round_eq]
    refine Int.le_floor.mpr ?_
    push_cast
    linarith
  have hhigh : round (q * 100) ≤ 10000 := by
    rw [round_eq]
    have hfl : ((⌊q * 100 + 1 / 2⌋ : ℤ) : ℚ) ≤ q * 100 + 1 / 2 := Int.floor_le _
    by_contra hcon
    push_neg at hcon
    have hc : (10001 : ℚ) ≤ ((⌊q * 100 + 1 / 2⌋ : ℤ) : ℚ) := by
      exact_mod_cast hcon
    linarith
  constructor
  · rw [round2]
    have hcast : (0 : ℚ) ≤ ((round (q * 100) : ℤ) : ℚ) := by exact_mod_cast hlow
    exact div_nonneg hcast (by norm_num)
  · rw [round2]
    have hcast : ((round (q * 100) : ℤ) : ℚ) ≤ 10000 := by exact_mod_cast hhigh
    rw [div_le_iff (by norm_num : (0 : ℚ) < 100)]
    linarith

/-- C7: for every non-empty string s, calc_gc_content s equals
100 * (count of 'C' + count of 'G') / len(s) rounded to 2 decimal places, and
the value lies in the interval [0, 100]. -/
theorem claim_C7_calc_gc_content (s : List Char) (hne : s ≠ []) :
    calc_gc_content s =
      round2 ((100 * ((s.count 'C' : ℚ) + (s.count 'G' : ℚ))) / (s.length : ℚ)) ∧
    0 ≤ calc_gc_content s ∧ calc_gc_content s ≤ 100 := by
  have hfold := gc_count_foldl s 0 0
  have heq : calc_gc_content s =
      round2 ((100 * ((s.count 'C' : ℚ) + (s.count 'G' : ℚ))) / (s.length : ℚ)) := by
    rw [calc_gc_content, hfold]
    simp
  refine ⟨heq, ?_⟩
  rw [heq]
  have hlen : (0 : ℚ) < (s.length : ℚ) := by
    have := List.length_pos.mpr hne
    exact_mod_cast this
  have hle := count_CG_le s
  have hle' : ((s.count 'C' : ℚ) + (s.count 'G' : ℚ)) ≤ (s.length : ℚ) := by
    exact_mod_cast hle
  have h0 : 0 ≤ (100 * ((s.count 'C' : ℚ) + (s.count 'G' : ℚ))) / (s.length : ℚ) := by
    positivity
  have h100 : (100 * ((s.count 'C' : ℚ) + (s.count 'G' : ℚ))) / (s.length : ℚ) ≤ 100 := by
    rw [div_le_iff hlen]
    nlinarith
  exact round2_bounds _ h0 h100

/-- Witness for C7 at s = "CG": gc content 100, inside the bounds. -/
theorem claim_C7_witness :
    (['C', 'G'] : List Char) ≠ [] ∧
    (0 ≤ calc_gc_content ['C', 'G'] ∧ calc_gc_content ['C', 'G'] ≤ 100) :=
  ⟨by decide, (claim_C7_calc_gc_content ['C', 'G'] (by decide)).2⟩

/-- An LCS candidate record: value, 1-based indices of the sequences that
contain it, and its length. -/
structure LcsCandidate where
  value : List Char
  sequences : List Nat
  length : Nat
deriving DecidableEq

/-- The two output shapes of compute_longest_common_subsequence: a single
record, or the keyed mapping returned on a tie (its keys are the candidate
values, so the entry list carries the same information). -/
inductive LcsResult
  | record (r : LcsCandidate)
  | mapping (rs : List LcsCandidate)
deriving DecidableEq

/-- Sequence pairs in the order of itertools.combinations(range(n), 2). -/
def seqPairs (seqs : List (List Char)) : List (List Char × List Char) :=
  (List.range seqs.length).flatMap (fun i =>
    ((List.range seqs.length).drop (i + 1)).map
      (fun j => (seqs.getD i [], seqs.getD j [])))

/-- The 1-based indices of the sequences containing the candidate, in order:
[i + 1 for i, seq in enumerate(sequences) if candidate in seq]. -/
def seqIndicesOf (candidate : List Char) (seqs : List (List Char)) : List Nat :=
  ((List.range seqs.length).filter
    (fun i => candidate <:+: seqs.getD i [])).map (fun i => i + 1)

/-- The shared shape of both aggregation passes: keep every element attaining
the running maximum of f, in encounter order, resetting the kept list
whenever a strictly larger value appears. -/
def collectStep {α β : Type} (f : α → Nat) (g : α → β)
    (acc : Nat × List β) (x : α) : Nat × List β :=
  if acc.1 ≤ f x then
    if acc.1 < f x then (f x, [g x]) else (acc.1, acc.2 ++ [g x])
  else acc

/-- First aggregation pass of compute_longest_common_subsequence: running
maximum length and the non-empty pairwise results attaining it. -/
def maxLenPass (lcs_results : List (List Char)) : Nat × List (List Char) :=
  lcs_results.foldl
    (fun acc lcs => if lcs ≠ [] then collectStep List.length id acc lcs else acc)
    (0, [])

/-- Occurrence pass of compute_longest_common_subsequence: running maximum
occurrence count and the full records of the candidates attaining it. -/
def occPass (seqs : List (List Char)) (candidates : List (List Char)) :
    Nat × List LcsCandidate :=
  candidates.foldl
    (collectStep (fun c => (seqIndicesOf c seqs).length)
      (fun c => ⟨c, seqIndicesOf c seqs, c.length⟩))
    (0, [])

/-- compute_longest_common_subsequence from process_txt.py. -/
def compute_longest_common_subsequence (seqs : List (List Char)) : LcsResult :=
  if seqs = [] then .record ⟨[], [], 0⟩
  else
    let lcs_results := (seqPairs seqs).map (fun p => find_lcs_of_two p.1 p.2)
    let candidates := dedupFirst [] (maxLenPass lcs_results).2
    if candidates = [] then .record ⟨[], [], 0⟩
    else
      match (occPass seqs candidates).2 with
      | [r] => .record r
      | rs => .mapping rs

theorem runMax_init_le {α : Type} (f : α → Nat) (xs : List α) :
    ∀ m, m ≤ xs.foldl (fun a x => max a (f x)) m := by
  induction xs with
  | nil => intro m; exact le_refl m
  | cons x xs ih =>
    intro m
    refine le_trans ?_ (ih (max m (f x)))
    omega

theorem runMax_attained {α : Type} (f : α → Nat) (xs : List α) :
    ∀ m, xs.foldl (fun a x => max a (f x)) m = m ∨
      ∃ x ∈ xs, f x = xs.foldl (fun a x => max a (f x)) m := by
  induction xs with
  | nil => intro m; exact Or.inl rfl
  | cons x xs ih =>
    intro m
    rw [List.foldl_cons]
    rcases ih (max m (f x)) with h | ⟨y, hy, hfy⟩
    · by_cases hfx : f x ≤ m
      · left
        rw [h]
        omega
      · right
        refine ⟨x, List.mem_cons_self _ _, ?_⟩
        rw [h]
        omega
    · exact Or.inr ⟨y, List.mem_cons_of_mem _ hy, hfy⟩

theorem foldl_filter_step {α β : Type} (p : α → Prop) [DecidablePred p]
    (step : β → α → β) (xs : List α) :
    ∀ init, xs.foldl (fun acc x => if p x then step acc x else acc) init =
      (xs.filter (fun x => p x)).foldl step init := by
  induction xs with
  | nil => intro init; rfl
  | cons x xs ih =>
    intro init
    by_cases hx : p x
    · rw [List.foldl_cons, if_pos hx, List.filter_cons_of_pos (by simpa using hx),
        List.foldl_cons, ih]
    · rw [List.foldl_cons, if_neg hx, List.filter_cons_of_neg (by simpa using hx),
        ih]

theorem foldl_collectStep {α β : Type} (f : α → Nat) (g : α → β) (xs : List α) :
    ∀ m l, xs.foldl (collectStep f g) (m, l) =
      (xs.foldl (fun a y => max a (f y)) m,
       (if xs.foldl (fun a y => max a (f y)) m = m then l else []) ++
         (xs.filter (fun y => f y = xs.foldl (fun a y => max a (f y)) m)).map g) := by
  induction xs with
  | nil =>
    intro m l
    simp
  | cons x xs ih =>
    intro m l
    rw [List.foldl_cons, List.foldl_cons]
    rcases Nat.lt_trichotomy (f x) m with hlt | heq | hgt
    · have hstep : collectStep f g (m, l) x = (m, l) := by
        rw [collectStep, if_neg (by omega : ¬ ((m, l).1 ≤ f x))]
      have hmax : max m (f x) = m := by omega
      have hM0 := runMax_init_le f xs m
      rw [hstep, hmax, ih m l, List.filter_cons_of_neg (by
        simp only [decide_eq_true_eq]
        omega)]
    · have hstep : collectStep f g (m, l) x = (m, l ++ [g x]) := by
        rw [collectStep, if_pos (by omega : ((m, l).1 ≤ f x)),
          if_neg (by omega : ¬ ((m, l).1 < f x))]
      have hmax : max m (f x) = m := by omega
      have hM0 := runMax_init_le f xs m
      rw [hstep, hmax, ih m (l ++ [g x])]
      by_cases hMm : xs.foldl (fun a y => max a (f y)) m = m
      · rw [if_pos hMm, if_pos hMm, List.filter_cons_of_pos (by
          simp only [decide_eq_true_eq]
          omega), List.map_cons, List.append_assoc]
        rfl
      · rw [if_neg hMm, if_neg hMm, List.filter_cons_of_neg (by
          simp only [decide_eq_true_eq]
          omega)]
    · have hstep : collectStep f g (m, l) x = (f x, [g x]) := by
        rw [collectStep, if_pos (by omega : ((m, l).1 ≤ f x)),
          if_pos (by omega : ((m, l).1 < f x))]
      have hmax : max m (f x) = f x := by omega
      have hM0 := runMax_init_le f xs (f x)
      rw [hstep, hmax, ih (f x) [g x]]
      have hMm : ¬ (xs.foldl (fun a y => max a (f y)) (f x) = m) := by omega
      rw [if_neg hMm]
      by_cases hMfx : xs.foldl (fun a y => max a (f y)) (f x) = f x
      · rw [if_pos hMfx, List.filter_cons_of_pos (by
          simp only [decide_eq_true_eq]
          omega), List.map_cons]
        rfl
      · rw [if_neg hMfx, List.filter_cons_of_neg (by
          simp only [decide_eq_true_eq]
          omega)]

theorem range'_drop (m : Nat) : ∀ s n, (List.range' s n).drop m =
    List.range' (s + m) (n - m) := by
  induction m with
  | zero =>
    intro s n
    simp
  | succ m ih =>
    intro s n
    cases n with
    | zero => simp
    | succ k =>
      rw [List.range'_succ, List.drop_succ_cons, ih (s + 1) k]
      congr 1 <;> omega

theorem mem_seqPairs {seqs : List (List Char)} {p : List Char × List Char}
    (hp : p ∈ seqPairs seqs) :
    ∃ i j, i < j ∧ j < seqs.length ∧
      p = (seqs.getD i [], seqs.getD j []) := by
  rw [seqPairs, List.mem_flatMap] at hp
  obtain ⟨i, hi, hp⟩ := hp
  rw [List.mem_map] at hp
  obtain ⟨j, hj, rfl⟩ := hp
  rw [List.mem_range] at hi
  rw [List.range_eq_range', range'_drop, List.mem_range'_1] at hj
  exact ⟨i, j, by omega, by omega, rfl⟩

/-- Pairwise results in combinations order. -/
def lcsResultsOf (seqs : List (List Char)) : List (List Char) :=
  (seqPairs seqs).map (fun p => find_lcs_of_two p.1 p.2)

/-- Deduplicated maximal-length candidates, in first-seen order. -/
def lcsCandidatesOf (seqs : List (List Char)) : List (List Char) :=
  dedupFirst [] (maxLenPass (lcsResultsOf seqs)).2

/-- The maximum occurrence count over the candidate set. -/
def maxOccOf (seqs : List (List Char)) : Nat :=
  (lcsCandidatesOf seqs).foldl
    (fun a c => max a (seqIndicesOf c seqs).length) 0

/-- The candidates attaining the maximum occurrence count, in order. -/
def lcsWinners (seqs : List (List Char)) : List (List Char) :=
  (lcsCandidatesOf seqs).filter
    (fun c => (seqIndicesOf c seqs).length = maxOccOf seqs)

/-- The full record built for a candidate. -/
def mkLcsRecord (seqs : List (List Char)) (c : List Char) : LcsCandidate :=
  ⟨c, seqIndicesOf c seqs, c.length⟩

theorem maxLenPass_eq (lcs_results : List (List Char)) :
    maxLenPass lcs_results =
      ((lcs_results.filter (fun w => w ≠ [])).foldl
          (fun a w => max a w.length) 0,
        (lcs_results.filter (fun w => w ≠ [])).filter
          (fun w => w.length = (lcs_results.filter (fun w => w ≠ [])).foldl
            (fun a w => max a w.length) 0)) := by
  rw [maxLenPass,
    foldl_filter_step (fun w => w ≠ []) (collectStep List.length id),
    foldl_collectStep]
  simp [ite_self, List.map_id]

theorem occPass_eq (seqs : List (List Char)) :
    occPass seqs (lcsCandidatesOf seqs) =
      (maxOccOf seqs, (lcsWinners seqs).map (mkLcsRecord seqs)) := by
  rw [occPass, foldl_collectStep]
  simp only [maxOccOf, lcsWinners, mkLcsRecord, ite_self, List.nil_append]
  rfl

theorem compute_lcs_empty_path (seqs : List (List Char)) (hne : seqs ≠ [])
    (hcand : lcsCandidatesOf seqs = []) :
    compute_longest_common_subsequence seqs = .record ⟨[], [], 0⟩ := by
  unfold compute_longest_common_subsequence
  rw [if_neg hne]
  show (if lcsCandidatesOf seqs = [] then LcsResult.record ⟨[], [], 0⟩
    else match (occPass seqs (lcsCandidatesOf seqs)).2 with
      | [r] => LcsResult.record r
      | rs => LcsResult.mapping rs) = LcsResult.record ⟨[], [], 0⟩
  rw [if_pos hcand]

theorem compute_lcs_main_path (seqs : List (List Char)) (hne : seqs ≠ [])
    (hcand : lcsCandidatesOf seqs ≠ []) :
    compute_longest_common_subsequence seqs =
      match (lcsWinners seqs).map (mkLcsRecord seqs) with
      | [r] => LcsResult.record r
      | rs => LcsResult.mapping rs := by
  unfold compute_longest_common_subsequence
  rw [if_neg hne]
  show (if lcsCandidatesOf seqs = [] then LcsResult.record ⟨[], [], 0⟩
    else match (occPass seqs (lcsCandidatesOf seqs)).2 with
      | [r] => LcsResult.record r
      | rs => LcsResult.mapping rs) = _
  rw [if_neg hcand, occPass_eq]

theorem runMax_le {α : Type} (f : α → Nat) (xs : List α) :
    ∀ m, ∀ x ∈ xs, f x ≤ xs.foldl (fun a y => max a (f y)) m := by
  induction xs with
  | nil =>
    intro m x hx
    exact absurd hx (List.not_mem_nil x)
  | cons x xs ih =>
    intro m y hy
    rw [List.foldl_cons]
    rcases List.mem_cons.mp hy with rfl | hy
    · exact le_trans (by omega : f y ≤ max m (f y)) (runMax_init_le f xs _)
    · exact ih _ y hy

theorem candidates_origin {seqs : List (List Char)} {c : List Char}
    (hc : c ∈ lcsCandidatesOf seqs) :
    c ≠ [] ∧ ∃ i j, i < j ∧ j < seqs.length ∧
      c = find_lcs_of_two (seqs.getD i []) (seqs.getD j []) := by
  rw [lcsCandidatesOf] at hc
  have hc2 : c ∈ (maxLenPass (lcsResultsOf seqs)).2 := (mem_dedupFirst.mp hc).2
  rw [maxLenPass_eq] at hc2
  have hc3 := List.mem_of_mem_filter hc2
  have hcne : c ≠ [] := by
    have := (List.mem_filter.mp hc3).2
    simpa using this
  have hc4 : c ∈ lcsResultsOf seqs := List.mem_of_mem_filter hc3
  rw [lcsResultsOf, List.mem_map] at hc4
  obtain ⟨p, hp, hcp⟩ := hc4
  obtain ⟨i, j, hij, hj, hpe⟩ := mem_seqPairs hp
  refine ⟨hcne, i, j, hij, hj, ?_⟩
  rw [← hcp, hpe]

/-- C2 counterexample: the list ["A", "A"] has a single distinct sequence,
yet compute_longest_common_subsequence returns a non-empty record. -/
theorem claim_C2_counterexample :
    ([['A'], ['A']] : List (List Char)).dedup.length = 1 ∧
    compute_longest_common_subsequence [['A'], ['A']] =
      LcsResult.record ⟨['A'], [1, 2], 1⟩ ∧
    compute_longest_common_subsequence [['A'], ['A']] ≠
      LcsResult.record ⟨[], [], 0⟩ := by
  refine ⟨by decide, ?_, ?_⟩ <;> decide

/-- C2 amended: compute_longest_common_subsequence returns the empty record
{ value: "", sequences: [], length: 0 } whenever the input list has fewer
than 2 sequences counted with multiplicity (empty and one-element lists),
and whenever no two sequences at distinct positions share a length-1
substring; duplicate equal sequences count separately, so two equal
non-empty sequences produce a non-empty result instead. -/
theorem claim_C2_lcs_empty (seqs : List (List Char))
    (h : seqs.length < 2 ∨
      ∀ i j, i < j → j < seqs.length →
        ¬ ∃ c ∈ seqs.getD i [], [c] <:+: seqs.getD j []) :
    compute_longest_common_subsequence seqs = .record ⟨[], [], 0⟩ := by
  by_cases hnil : seqs = []
  · unfold compute_longest_common_subsequence
    rw [if_pos hnil]
  · refine compute_lcs_empty_path seqs hnil ?_
    have hres : ∀ w ∈ lcsResultsOf seqs, w = [] := by
      intro w hw
      rw [lcsResultsOf, List.mem_map] at hw
      obtain ⟨p, hp, hwp⟩ := hw
      obtain ⟨i, j, hij, hj, hpe⟩ := mem_seqPairs hp
      rcases h with h | h
      · omega
      · rw [← hwp, hpe]
        exact (find_lcs_empty_iff _ _).mpr (h i j hij hj)
    have hflt : (lcsResultsOf seqs).filter (fun w => w ≠ []) = [] := by
      rw [List.filter_eq_nil_iff]
      intro w hw
      simpa using hres w hw
    rw [lcsCandidatesOf, maxLenPass_eq]
    rw [hflt]
    rfl

/-- Witness for the amended C2 at ["A", "B"], two sequences sharing no
character. -/
theorem claim_C2_witness :
    (([['A'], ['B']] : List (List Char)).length < 2 ∨
      ∀ i j, i < j → j < ([['A'], ['B']] : List (List Char)).length →
        ¬ ∃ c ∈ ([['A'], ['B']] : List (List Char)).getD i [],
          [c] <:+: ([['A'], ['B']] : List (List Char)).getD j []) ∧
    compute_longest_common_subsequence [['A'], ['B']] =
      .record ⟨[], [], 0⟩ := by
  have hyp : ∀ i j, i < j → j < ([['A'], ['B']] : List (List Char)).length →
      ¬ ∃ c ∈ ([['A'], ['B']] : List (List Char)).getD i [],
        [c] <:+: ([['A'], ['B']] : List (List Char)).getD j [] := by
    intro i j hij hj
    have hj2 : j < 2 := by simpa using hj
    have hj1 : j = 1 := by omega
    have hi0 : i = 0 := by omega
    subst hj1
    subst hi0
    decide
  exact ⟨Or.inr hyp, claim_C2_lcs_empty _ (Or.inr hyp)⟩

/-- C3: when compute_longest_common_subsequence on a list of at least 2
sequences resolves to a single non-empty LcsCandidate record, its sequences
field is exactly the ordered list of all 1-based indices over the entire
input whose sequence contains the record's value as a contiguous
substring. -/
theorem claim_C3_lcs_sequences (seqs : List (List Char)) (r : LcsCandidate)
    (h2 : 2 ≤ seqs.length)
    (hr : compute_longest_common_subsequence seqs = .record r)
    (hval : r.value ≠ []) :
    r.sequences = ((List.range seqs.length).filter
      (fun i => r.value <:+: seqs.getD i [])).map (fun i => i + 1) := by
  have hnil : seqs ≠ [] := by
    intro h
    rw [h] at h2
    simp at h2
  by_cases hcand : lcsCandidatesOf seqs = []
  · rw [compute_lcs_empty_path seqs hnil hcand] at hr
    injection hr with hinj
    rw [← hinj] at hval
    exact absurd rfl hval
  · rw [compute_lcs_main_path seqs hnil hcand] at hr
    rcases hw : lcsWinners seqs with _ | ⟨c, rest⟩
    · rw [hw] at hr
      exact LcsResult.noConfusion hr
    · rcases rest with _ | ⟨c2, rest2⟩
      · rw [hw] at hr
        simp only [List.map_cons, List.map_nil] at hr
        injection hr with hinj
        rw [← hinj]
        rfl
      · rw [hw] at hr
        simp only [List.map_cons] at hr
        exact LcsResult.noConfusion hr

/-- Witness for C3 at ["A", "A"]: value "A" occurs in both sequences. -/
theorem claim_C3_witness :
    (2 ≤ ([['A'], ['A']] : List (List Char)).length ∧
      compute_longest_common_subsequence [['A'], ['A']] =
        .record ⟨['A'], [1, 2], 1⟩ ∧
      (⟨['A'], [1, 2], 1⟩ : LcsCandidate).value ≠ []) ∧
    (⟨['A'], [1, 2], 1⟩ : LcsCandidate).sequences =
      ((List.range ([['A'], ['A']] : List (List Char)).length).filter
        (fun i => (⟨['A'], [1, 2], 1⟩ : LcsCandidate).value <:+:
          ([['A'], ['A']] : List (List Char)).getD i [])).map (fun i => i + 1) :=
  ⟨⟨by decide, by decide, by decide⟩,
    claim_C3_lcs_sequences [['A'], ['A']] ⟨['A'], [1, 2], 1⟩
      (by decide) (by decide) (by decide)⟩

/-- C4: on input producing at least one non-empty pairwise match, the output
is a single record exactly when one deduplicated maximum-length candidate
attains the maximum occurrence count, and the keyed mapping exactly when two
or more tie; the result type has no third shape. -/
theorem claim_C4_output_shape (seqs : List (List Char))
    (h : ∃ p ∈ seqPairs seqs, find_lcs_of_two p.1 p.2 ≠ []) :
    ((∃ r, compute_longest_common_subsequence seqs = .record r) ↔
      (lcsWinners seqs).length = 1) ∧
    ((∃ rs, compute_longest_common_subsequence seqs = .mapping rs) ↔
      2 ≤ (lcsWinners seqs).length) := by
  obtain ⟨p, hp, hpne⟩ := h
  have hnil : seqs ≠ [] := by
    intro hq
    subst hq
    simp [seqPairs] at hp
  have hwres : find_lcs_of_two p.1 p.2 ∈ lcsResultsOf seqs := by
    rw [lcsResultsOf, List.mem_map]
    exact ⟨p, hp, rfl⟩
  have hwne : find_lcs_of_two p.1 p.2 ∈
      (lcsResultsOf seqs).filter (fun v => v ≠ []) :=
    List.mem_filter.mpr ⟨hwres, by simpa using hpne⟩
  have hwM : (find_lcs_of_two p.1 p.2).length ≤
      ((lcsResultsOf seqs).filter (fun v => v ≠ [])).foldl
        (fun a v => max a v.length) 0 :=
    runMax_le _ _ 0 _ hwne
  have hw1 : 1 ≤ (find_lcs_of_two p.1 p.2).length := List.length_pos.mpr hpne
  have hattain : ∃ v ∈ (lcsResultsOf seqs).filter (fun v => v ≠ []),
      v.length = ((lcsResultsOf seqs).filter (fun v => v ≠ [])).foldl
        (fun a v => max a v.length) 0 := by
    rcases runMax_attained (fun v : List Char => v.length)
        ((lcsResultsOf seqs).filter (fun v => v ≠ [])) 0 with h0 | h0
    · omega
    · exact h0
  obtain ⟨v, hv, hvM⟩ := hattain
  have hvmc : v ∈ (maxLenPass (lcsResultsOf seqs)).2 := by
    rw [maxLenPass_eq]
    exact List.mem_filter.mpr ⟨hv, by simpa using hvM⟩
  have hcand : lcsCandidatesOf seqs ≠ [] := by
    refine List.ne_nil_of_mem (a := v) ?_
    rw [lcsCandidatesOf]
    exact mem_dedupFirst.mpr ⟨List.not_mem_nil _, hvmc⟩
  have hwinne : lcsWinners seqs ≠ [] := by
    obtain ⟨c0, hc0⟩ := List.exists_mem_of_ne_nil _ hcand
    rcases runMax_attained (fun c => (seqIndicesOf c seqs).length)
        (lcsCandidatesOf seqs) 0 with h0 | ⟨c, hcm, hcM⟩
    · refine List.ne_nil_of_mem (a := c0) ?_
      rw [lcsWinners]
      refine List.mem_filter.mpr ⟨hc0, ?_⟩
      simp only [decide_eq_true_eq]
      have hle : (seqIndicesOf c0 seqs).length ≤ maxOccOf seqs := by
        rw [maxOccOf]
        exact runMax_le (fun c => (seqIndicesOf c seqs).length)
          (lcsCandidatesOf seqs) 0 c0 hc0
      rw [maxOccOf, h0]
      rw [maxOccOf, h0] at hle
      omega
    · refine List.ne_nil_of_mem (a := c) ?_
      rw [lcsWinners]
      refine List.mem_filter.mpr ⟨hcm, ?_⟩
      simp only [decide_eq_true_eq]
      rw [maxOccOf]
      exact hcM
  obtain ⟨c, rest, hw⟩ := List.exists_cons_of_ne_nil hwinne
  rw [compute_lcs_main_path seqs hnil hcand, hw]
  rcases rest with _ | ⟨c2, rest2⟩
  · refine ⟨⟨fun _ => by simp, fun _ => ⟨mkLcsRecord seqs c, rfl⟩⟩, ?_⟩
    constructor
    · rintro ⟨rs, hrs⟩
      simp only [List.map_cons, List.map_nil] at hrs
      exact LcsResult.noConfusion hrs
    · intro hlen
      simp at hlen
  · constructor
    · constructor
      · rintro ⟨r, hr⟩
        simp only [List.map_cons] at hr
        exact LcsResult.noConfusion hr
      · intro hlen
        simp at hlen
    · refine ⟨fun _ => ?_, fun _ => ?_⟩
      · simp only [List.length_cons]
        omega
      · exact ⟨mkLcsRecord seqs c :: mkLcsRecord seqs c2 ::
          rest2.map (mkLcsRecord seqs), rfl⟩

/-- Witness for C4 at ["A", "A"]: one pair with a non-empty match and a
single winning candidate. -/
theorem claim_C4_witness :
    (∃ p ∈ seqPairs [['A'], ['A']], find_lcs_of_two p.1 p.2 ≠ []) ∧
    ((∃ r, compute_longest_common_subsequence [['A'], ['A']] = .record r) ↔
      (lcsWinners [['A'], ['A']]).length = 1) :=
  ⟨by decide,
    (claim_C4_output_shape [['A'], ['A']] (by decide)).1⟩

theorem two_le_length_of_two_mem {l : List Nat} {a b : Nat}
    (ha : a ∈ l) (hb : b ∈ l) (hab : a ≠ b) : 2 ≤ l.length := by
  match l with
  | [] => exact absurd ha (List.not_mem_nil a)
  | [x] =>
    rw [List.mem_singleton] at ha hb
    exact absurd (ha.trans hb.symm) hab
  | x :: y :: rest =>
    simp only [List.length_cons]
    omega

/-- C10: every LcsCandidate record produced by
compute_longest_common_subsequence, returned alone or as an entry of the tied
mapping, has length equal to the length of its value, a strictly increasing
list of 1-based indices each of whose sequences contains the value as a
contiguous substring, and, when the value is non-empty, at least 2 indices. -/
theorem claim_C10_record_invariants (seqs : List (List Char)) (r : LcsCandidate)
    (hr : compute_longest_common_subsequence seqs = .record r ∨
      ∃ rs, compute_longest_common_subsequence seqs = .mapping rs ∧ r ∈ rs) :
    r.length = r.value.length ∧
    r.sequences.Pairwise (fun a b => a < b) ∧
    (∀ i ∈ r.sequences, 1 ≤ i ∧ i ≤ seqs.length ∧
      r.value <:+: seqs.getD (i - 1) []) ∧
    (r.value ≠ [] → 2 ≤ r.sequences.length) := by
  have hcases : r = ⟨[], [], 0⟩ ∨
      ∃ c ∈ lcsWinners seqs, r = mkLcsRecord seqs c := by
    have hempty : compute_longest_common_subsequence seqs = .record ⟨[], [], 0⟩ →
        r = ⟨[], [], 0⟩ ∨ ∃ c ∈ lcsWinners seqs, r = mkLcsRecord seqs c := by
      intro hemp
      rcases hr with hr | ⟨rs, hrs, hmem⟩
      · rw [hemp] at hr
        injection hr with hinj
        exact Or.inl hinj.symm
      · rw [hemp] at hrs
        exact LcsResult.noConfusion hrs
    by_cases hnil : seqs = []
    · refine hempty ?_
      unfold compute_longest_common_subsequence
      rw [if_pos hnil]
    · by_cases hcand : lcsCandidatesOf seqs = []
      · exact hempty (compute_lcs_empty_path seqs hnil hcand)
      · have hmain := compute_lcs_main_path seqs hnil hcand
        rcases hmap : (lcsWinners seqs).map (mkLcsRecord seqs) with _ | ⟨r1, rest⟩
        · rw [hmap] at hmain
          rcases hr with hr | ⟨rs, hrs, hmem⟩
          · rw [hmain] at hr
            exact LcsResult.noConfusion hr
          · rw [hmain] at hrs
            injection hrs with hinj
            rw [← hinj] at hmem
            exact absurd hmem (List.not_mem_nil r)
        · rcases rest with _ | ⟨r2, rest2⟩
          · rw [hmap] at hmain
            rcases hr with hr | ⟨rs, hrs, hmem⟩
            · rw [hmain] at hr
              injection hr with hinj
              have hr1 : r1 ∈ (lcsWinners seqs).map (mkLcsRecord seqs) := by
                rw [hmap]
                exact List.mem_singleton_self r1
              rw [List.mem_map] at hr1
              obtain ⟨c, hc, hce⟩ := hr1
              exact Or.inr ⟨c, hc, by rw [← hinj, ← hce]⟩
            · rw [hmain] at hrs
              exact LcsResult.noConfusion hrs
          · rw [hmap] at hmain
            rcases hr with hr | ⟨rs, hrs, hmem⟩
            · rw [hmain] at hr
              exact LcsResult.noConfusion hr
            · rw [hmain] at hrs
              injection hrs with hinj
              rw [← hinj] at hmem
              have hrm : r ∈ (lcsWinners seqs).map (mkLcsRecord seqs) := by
                rw [hmap]
                exact hmem
              rw [List.mem_map] at hrm
              obtain ⟨c, hc, hce⟩ := hrm
              exact Or.inr ⟨c, hc, hce.symm⟩
  rcases hcases with rfl | ⟨c, hcw, rfl⟩
  · refine ⟨rfl, List.Pairwise.nil, ?_, ?_⟩
    · intro i hi
      exact absurd hi (List.not_mem_nil i)
    · intro h
      exact absurd rfl h
  · have hseq : (mkLcsRecord seqs c).sequences = seqIndicesOf c seqs := rfl
    refine ⟨rfl, ?_, ?_, ?_⟩
    · rw [hseq, seqIndicesOf]
      refine List.Pairwise.map _ (fun a b hab => ?_)
        ((List.pairwise_lt_range seqs.length).filter _)
      omega
    · intro i hi
      rw [hseq, seqIndicesOf, List.mem_map] at hi
      obtain ⟨j, hj, rfl⟩ := hi
      rw [List.mem_filter, List.mem_range] at hj
      have hinf : c <:+: seqs.getD j [] := by
        have := hj.2
        simpa using this
      refine ⟨by omega, by omega, ?_⟩
      simpa using hinf
    · intro hcne
      have hcc : c ∈ lcsCandidatesOf seqs := List.mem_of_mem_filter hcw
      obtain ⟨-, i, j, hij, hj, hceq⟩ := candidates_origin hcc
      have hinfix := find_lcs_infix (seqs.getD i []) (seqs.getD j [])
      rw [← hceq] at hinfix
      have hi_mem : i + 1 ∈ seqIndicesOf c seqs := by
        rw [seqIndicesOf, List.mem_map]
        refine ⟨i, ?_, rfl⟩
        rw [List.mem_filter, List.mem_range]
        exact ⟨by omega, by simpa using hinfix.1⟩
      have hj_mem : j + 1 ∈ seqIndicesOf c seqs := by
        rw [seqIndicesOf, List.mem_map]
        refine ⟨j, ?_, rfl⟩
        rw [List.mem_filter, List.mem_range]
        exact ⟨by omega, by simpa using hinfix.2⟩
      rw [hseq]
      exact two_le_length_of_two_mem hi_mem hj_mem (by omega)

/-- Witness for C10 at ["A", "A"] and its returned record. -/
theorem claim_C10_witness :
    (compute_longest_common_subsequence [['A'], ['A']] =
        .record ⟨['A'], [1, 2], 1⟩ ∨
      ∃ rs, compute_longest_common_subsequence [['A'], ['A']] = .mapping rs ∧
        (⟨['A'], [1, 2], 1⟩ : LcsCandidate) ∈ rs) ∧
    (⟨['A'], [1, 2], 1⟩ : LcsCandidate).length =
      (⟨['A'], [1, 2], 1⟩ : LcsCandidate).value.length ∧
    ((⟨['A'], [1, 2], 1⟩ : LcsCandidate).value ≠ [] →
      2 ≤ (⟨['A'], [1, 2], 1⟩ : LcsCandidate).sequences.length) :=
  ⟨Or.inl (by decide),
    (claim_C10_record_invariants [['A'], ['A']] ⟨['A'], [1, 2], 1⟩
      (Or.inl (by decide))).1,
    (claim_C10_record_invariants [['A'], ['A']] ⟨['A'], [1, 2], 1⟩
      (Or.inl (by decide))).2.2.2⟩

/-- The whitespace stripped by Python str.strip (ASCII whitespace). -/
def isPySpace (c : Char) : Bool :=
  ([' ', '\t', '\n', '\r', '\x0b', '\x0c'] : List Char).contains c

/-- Python line.strip(): drop leading and trailing whitespace. -/
def pyStrip (s : List Char) : List Char :=
  ((s.dropWhile isPySpace).reverse.dropWhile isPySpace).reverse

/-- The two ValueError sites of process_txt_files: the explicit empty-file
validation, and max() applied to an empty total codon table inside
compute_most_frequent_codon. -/
inductive EtlError
  | emptyFile
  | maxOfEmptyTable
deriving DecidableEq

/-- Per-sequence result of process_sequence. -/
structure SeqStats where
  gc_content : ℚ
  codons : List (List Char × Nat)
deriving DecidableEq

/-- process_sequence from process_txt.py. -/
def process_sequence (sequence : List Char) : SeqStats :=
  ⟨calc_gc_content sequence, compute_codon_frequency sequence⟩

/-- The record assembled by process_txt_files. -/
structure TxtRecord where
  sequences : List SeqStats
  most_common_codon : List Char
  lcs : LcsResult
deriving DecidableEq

/-- process_txt_files from process_txt.py on the file's lines: strip each
line, keep the non-blank ones, raise a validation error on zero usable
lines, otherwise assemble the full record; the ValueError raised by max()
inside compute_most_frequent_codon propagates uncaught. -/
def process_txt_files (fileLines : List (List Char)) :
    Except EtlError TxtRecord :=
  let sequences := (fileLines.map pyStrip).filter (fun s => s ≠ [])
  if sequences = [] then .error .emptyFile
  else
    let sequences_results := sequences.map process_sequence
    match compute_most_frequent_codon sequences with
    | none => .error .maxOfEmptyTable
    | some most_common_codon =>
      .ok ⟨sequences_results, most_common_codon,
        compute_longest_common_subsequence sequences⟩

theorem process_txt_files_empty (fileLines : List (List Char))
    (hf : (fileLines.map pyStrip).filter (fun s => s ≠ []) = []) :
    process_txt_files fileLines = .error .emptyFile := by
  unfold process_txt_files
  show (if (fileLines.map pyStrip).filter (fun s => s ≠ []) = []
    then _ else _) = _
  rw [if_pos hf]

theorem process_txt_files_nonempty (fileLines : List (List Char))
    (hf : (fileLines.map pyStrip).filter (fun s => s ≠ []) ≠ []) :
    process_txt_files fileLines =
      match compute_most_frequent_codon
          ((fileLines.map pyStrip).filter (fun s => s ≠ [])) with
      | none => .error .maxOfEmptyTable
      | some most_common_codon =>
        .ok ⟨((fileLines.map pyStrip).filter (fun s => s ≠ [])).map
            process_sequence, most_common_codon,
          compute_longest_common_subsequence
            ((fileLines.map pyStrip).filter (fun s => s ≠ []))⟩ := by
  unfold process_txt_files
  show (if (fileLines.map pyStrip).filter (fun s => s ≠ []) = []
    then _ else _) = _
  rw [if_neg hf]

/-- C8: process_txt_files returns the empty-file validation error exactly
when the file yields zero non-blank lines after stripping, and in that case
no record is produced; when a non-blank line exists, this error is not
raised. -/
theorem claim_C8_empty_input_error (fileLines : List (List Char)) :
    process_txt_files fileLines = .error .emptyFile ↔
      (fileLines.map pyStrip).filter (fun s => s ≠ []) = [] := by
  constructor
  · intro h
    by_contra hf
    rw [process_txt_files_nonempty _ hf] at h
    rcases hmc : compute_most_frequent_codon
        ((fileLines.map pyStrip).filter (fun s => s ≠ [])) with _ | mc
    · rw [hmc] at h
      injection h with h'
      exact EtlError.noConfusion h'
    · rw [hmc] at h
      exact Except.noConfusion h
  · exact process_txt_files_empty fileLines

theorem cmfc_none (seqs : List (List Char)) (h : ∀ s ∈ seqs, s.length < 3) :
    compute_most_frequent_codon seqs = none := by
  have hall : allCodons seqs = [] := by
    refine List.eq_nil_iff_forall_not_mem.mpr ?_
    intro c hc
    rw [allCodons, List.mem_flatMap] at hc
    obtain ⟨s, hs, hcs⟩ := hc
    have hlen : s.length / 3 = 0 := by
      have := h s hs
      omega
    rw [codonsOf, hlen] at hcs
    simp at hcs
  have hF : firstSeenCodons seqs = [] := by
    rw [firstSeenCodons, hall]
    rfl
  unfold compute_most_frequent_codon
  rw [total_characterization, hF]
  rfl

/-- C9: for a file whose non-blank stripped lines exist but are all shorter
than 3 characters, process_txt_files propagates the uncaught ValueError
from max() over the empty aggregated codon table and produces no record. -/
theorem claim_C9_short_lines_error (fileLines : List (List Char))
    (hne : (fileLines.map pyStrip).filter (fun s => s ≠ []) ≠ [])
    (hshort : ∀ s ∈ (fileLines.map pyStrip).filter (fun s => s ≠ []),
      s.length < 3) :
    process_txt_files fileLines = .error .maxOfEmptyTable := by
  rw [process_txt_files_nonempty _ hne,
    cmfc_none _ hshort]

/-- Witness for C9 at the single line "AB". -/
theorem claim_C9_witness :
    (([['A', 'B']] : List (List Char)).map pyStrip).filter
        (fun s => s ≠ []) ≠ [] ∧
    (∀ s ∈ (([['A', 'B']] : List (List Char)).map pyStrip).filter
        (fun s => s ≠ []), s.length < 3) ∧
    process_txt_files [['A', 'B']] = .error .maxOfEmptyTable :=
  ⟨by decide, by decide,
    claim_C9_short_lines_error [['A', 'B']] (by decide) (by decide)⟩
